import Mathlib

/-!
# Verification of the `tg` terminal Telegram client's state model

A shallow embedding of the state-holding core of the `tg` repository
(`tg/models.py` and the pure helpers of `tg/controllers.py`), together
with proofs and refutations of the spec's claims about it.

Conventions of the embedding:

* Python dicts keyed by ints become functions `Int → Option _` updated with
  `Function.update`; `defaultdict` defaults are baked into the initial
  state.
* Python `list.sort(reverse=True)` becomes `List.insertionSort` with the
  converse order: for plain integer (or tuple) keys the stable descending
  sort is the unique descending reordering, so any correct sort models it.
* Python strings are modelled as `List Char`; `str.split("\n")`,
  `"\n".join`, `str.startswith` and `str.strip` are given as executable
  functions on `List Char`.
* Fallible paths (a raised `ValueError`/`ZeroDivisionError`) return
  `Option`/`none`.
* Calls into the messaging backend (`self.tg.…`) are modelled by passing
  the backend's response as an explicit oracle argument; each operation
  additionally reports whether it actually issued the backend call.
-/

namespace Tg

/-! ## Message records and the message store (`MsgModel`, tg/models.py) -/

/-- The slice of a message record (a Python dict) that the claims touch:
its chat-unique `id` and the `can_be_forwarded` capability flag. -/
structure Msg where
  id : Int
  can_be_forwarded : Bool
deriving DecidableEq, Repr

/-- State of `MsgModel` (tg/models.py:493-498): per-chat message map
`msgs`, per-chat cursor `current_msgs` (a `defaultdict(int)`, so 0 by
default), the global `not_found` set, and the per-chat ordered index
`msg_ids` (a `defaultdict(list)`, so `[]` by default). -/
structure MsgModel where
  msgs : Int → Int → Option Msg
  current_msgs : Int → Nat
  not_found : Finset Int
  msg_ids : Int → List Int

/-- The freshly constructed `MsgModel`: empty maps, cursors all 0. -/
def initMsgModel : MsgModel where
  msgs := fun _ _ => none
  current_msgs := fun _ => 0
  not_found := ∅
  msg_ids := fun _ => []

/-- Python `list.sort(reverse=True)` on a list of ints: sort by the
converse of `≤`. -/
def sortDescInt (l : List Int) : List Int :=
  l.insertionSort (fun a b => b ≤ a)

/-- `MsgModel.add_message` (tg/models.py:547-554): store the record under
its id, push the id onto the front of the per-chat index, and if the new
head is smaller than the element that was in front before (`ids[1]` after
the insert), re-sort the index descending.  Note the source performs no
duplicate check. -/
def add_message (s : MsgModel) (chat_id : Int) (msg : Msg) : MsgModel :=
  let msg_id := msg.id
  let ids := msg_id :: s.msg_ids chat_id
  let ids2 :=
    match ids with
    | _ :: second :: _ => if msg_id < second then sortDescInt ids else ids
    | _ => ids
  { s with
    msgs := Function.update s.msgs chat_id
      (Function.update (s.msgs chat_id) msg_id (some msg))
    msg_ids := Function.update s.msg_ids chat_id ids2 }

/-- `MsgModel.remove_messages` (tg/models.py:538-545): for each id, remove
its first occurrence from the index (a raised `ValueError` for an absent
id is swallowed, which `List.erase` models exactly) and pop it from the
map. -/
def remove_messages (s : MsgModel) (chat_id : Int) (ids : List Int) : MsgModel :=
  ids.foldl
    (fun st msg_id =>
      { st with
        msg_ids := Function.update st.msg_ids chat_id
          ((st.msg_ids chat_id).erase msg_id)
        msgs := Function.update st.msgs chat_id
          (Function.update (st.msgs chat_id) msg_id none) })
    s

/-- `MsgModel.next_msg` (tg/models.py:506-511): at the bottom (cursor 0)
report `false`; otherwise move the cursor toward 0 by `step`, clamped at 0
(`max(0, current - step)` is exactly `Nat` subtraction). -/
def next_msg (s : MsgModel) (chat_id : Int) (step : Nat) : MsgModel × Bool :=
  let current := s.current_msgs chat_id
  if current = 0 then (s, false)
  else ({ s with current_msgs := Function.update s.current_msgs chat_id (current - step) }, true)

/-- `MsgModel.jump_bottom` (tg/models.py:513-517). -/
def jump_bottom (s : MsgModel) (chat_id : Int) : MsgModel × Bool :=
  if s.current_msgs chat_id = 0 then (s, false)
  else ({ s with current_msgs := Function.update s.current_msgs chat_id 0 }, true)

/-- `MsgModel.prev_msg` (tg/models.py:519-524): move the cursor away from
0 by `step` only when the target stays inside the index. -/
def prev_msg (s : MsgModel) (chat_id : Int) (step : Nat) : MsgModel × Bool :=
  let new_idx := s.current_msgs chat_id + step
  if new_idx < (s.msg_ids chat_id).length then
    ({ s with current_msgs := Function.update s.current_msgs chat_id new_idx }, true)
  else (s, false)

/-- Python `list.index(x)`: position of the first occurrence, `none` for
the raised `ValueError` when absent. -/
def listIndex (x : Int) : List Int → Option Nat
  | [] => none
  | y :: t => if y = x then some 0 else (listIndex x t).map (· + 1)

/-- `MsgModel.jump_to_msg_by_id` (tg/models.py:500-504).  The source reads
`if index := self.msg_ids[chat_id].index(msg_id):` — the walrus value is
tested for *truthiness*, so position 0 falls through to `return False`
without moving the cursor; an absent id raises `ValueError` (`none`
here). -/
def jump_to_msg_by_id (s : MsgModel) (chat_id msg_id : Int) :
    Option (MsgModel × Bool) :=
  match listIndex msg_id (s.msg_ids chat_id) with
  | none => none
  | some index =>
    if index ≠ 0 then
      some ({ s with current_msgs := Function.update s.current_msgs chat_id index }, true)
    else some (s, false)

/-- `MsgModel.get_message` (tg/models.py:526-536).  `resp` is the
backend's answer to `tg.get_message` (`none` = error), consulted only on a
cache miss.  Returns the new state, the result, and whether the backend
was called.  Note the success path returns `result.update` *without*
storing it in `msgs`. -/
def get_message (s : MsgModel) (chat_id msg_id : Int) (resp : Option Msg) :
    MsgModel × Option Msg × Bool :=
  if msg_id ∈ s.not_found then (s, none, false)
  else
    match s.msgs chat_id msg_id with
    | some m => (s, some m, false)
    | none =>
      match resp with
      | none => ({ s with not_found := insert msg_id s.not_found }, none, true)
      | some m => (s, some m, true)

/-- The state effect of `MsgModel.fetch_msgs` (tg/models.py:614-629): when
the requested window `offset + limit` overruns the loaded index, every
message returned by `_fetch_msgs_until_limit` (here the oracle list
`fetched`) is fed through `add_message`; otherwise the store is
untouched. -/
def fetch_msgs_store (s : MsgModel) (chat_id : Int) (fetched : List Msg)
    (offset limit : Nat) : MsgModel :=
  if offset + limit > (s.msg_ids chat_id).length then
    fetched.foldl (fun st m => add_message st chat_id m) s
  else s

/-! ## Sequences of message-store operations -/

/-- One user-visible `MsgModel` operation, with backend responses inlined
as data (`fetchOp` carries what `_fetch_msgs_until_limit` returned). -/
inductive MsgOp
  | add (chat_id : Int) (msg : Msg)
  | remove (chat_id : Int) (ids : List Int)
  | fetchOp (chat_id : Int) (fetched : List Msg) (offset limit : Nat)
  | next (chat_id : Int) (step : Nat)
  | prev (chat_id : Int) (step : Nat)
  | bottom (chat_id : Int)
  | jump (chat_id : Int) (msg_id : Int)
deriving DecidableEq, Repr

/-- Apply one operation; `none` models an uncaught exception
(`jump_to_msg_by_id` on an id absent from the index). -/
def applyMsgOp (s : MsgModel) : MsgOp → Option MsgModel
  | .add c m => some (add_message s c m)
  | .remove c ids => some (remove_messages s c ids)
  | .fetchOp c fetched offset limit => some (fetch_msgs_store s c fetched offset limit)
  | .next c step => some (next_msg s c step).1
  | .prev c step => some (prev_msg s c step).1
  | .bottom c => some (jump_bottom s c).1
  | .jump c m => (jump_to_msg_by_id s c m).map Prod.fst

/-- Run a sequence of operations, aborting on an exception. -/
def applyMsgOps : MsgModel → List MsgOp → Option MsgModel
  | s, [] => some s
  | s, op :: rest =>
    match applyMsgOp s op with
    | none => none
    | some s2 => applyMsgOps s2 rest

/-- `true` when each message in `l`, added in order via `add_message` to
chat `c`, has an id not yet in that chat's index at its turn. -/
def freshAdds (s : MsgModel) (c : Int) : List Msg → Bool
  | [] => true
  | m :: rest =>
    (!decide (m.id ∈ s.msg_ids c)) && freshAdds (add_message s c m) c rest

/-- `true` when an operation never hands `add_message` an id already
present in the target chat's index (the condition the source omits to
check). -/
def freshOp (s : MsgModel) : MsgOp → Bool
  | .add c m => !decide (m.id ∈ s.msg_ids c)
  | .fetchOp c fetched offset limit =>
    if offset + limit > (s.msg_ids c).length then freshAdds s c fetched else true
  | _ => true

/-- `true` when every `add_message` performed along the run is fresh. -/
def freshRun : MsgModel → List MsgOp → Bool
  | _, [] => true
  | s, op :: rest =>
    freshOp s op &&
      match applyMsgOp s op with
      | none => true
      | some s2 => freshRun s2 rest

/-- `true` when the sequence stays inside the operation set of claim C4:
`add_message`, `next_msg`, `prev_msg`, `jump_bottom`,
`jump_to_msg_by_id` — everything of C4's list except `remove_messages`. -/
def noRemove : List MsgOp → Bool
  | [] => true
  | .remove _ _ :: _ => false
  | .fetchOp _ _ _ _ :: _ => false
  | _ :: rest => noRemove rest

/-! ## The two store invariants of the spec -/

/-- Claim C1's invariant: every per-chat index is strictly decreasing
(hence duplicate-free) and lists exactly the keys of the per-chat map. -/
def MsgIndexInv (s : MsgModel) : Prop :=
  ∀ chat_id : Int,
    List.Sorted (· > ·) (s.msg_ids chat_id) ∧
    ∀ m : Int, m ∈ s.msg_ids chat_id ↔ (s.msgs chat_id m).isSome

/-- The cursor invariant that survives the C4 operations: each per-chat
cursor is 0 (its default) or inside the index. -/
def CursorInv (s : MsgModel) : Prop :=
  ∀ chat_id : Int,
    s.current_msgs chat_id = 0 ∨ s.current_msgs chat_id < (s.msg_ids chat_id).length

/-! ## Basic lemmas about the embedded operations -/

instance : IsTotal Int (fun a b : Int => b ≤ a) := ⟨fun a b => le_total b a⟩

instance : IsTrans Int (fun a b : Int => b ≤ a) := ⟨fun _ _ _ h1 h2 => le_trans h2 h1⟩

theorem sortDescInt_perm (l : List Int) : List.Perm (sortDescInt l) l :=
  List.perm_insertionSort _ l

theorem sortDescInt_sorted (l : List Int) :
    List.Sorted (fun a b : Int => b ≤ a) (sortDescInt l) :=
  List.sorted_insertionSort _ l

/-- On a duplicate-free list the descending sort is strictly
decreasing. -/
theorem sortDescInt_sorted_gt {l : List Int} (h : l.Nodup) :
    List.Sorted (· > ·) (sortDescInt l) := by
  have hs := sortDescInt_sorted l
  have hn : (sortDescInt l).Nodup := (sortDescInt_perm l).nodup_iff.mpr h
  exact (hs.and hn).imp fun hab => lt_of_le_of_ne hab.1 (Ne.symm hab.2)

theorem add_message_msg_ids (s : MsgModel) (c : Int) (m : Msg) :
    (add_message s c m).msg_ids c =
      match s.msg_ids c with
      | [] => [m.id]
      | h :: t => if m.id < h then sortDescInt (m.id :: h :: t) else m.id :: h :: t := by
  unfold add_message
  simp only [Function.update_same]
  cases s.msg_ids c <;> rfl

theorem add_message_msg_ids_other (s : MsgModel) (c : Int) (m : Msg)
    {c' : Int} (h : c' ≠ c) : (add_message s c m).msg_ids c' = s.msg_ids c' := by
  unfold add_message
  simp only [Function.update_noteq h]

theorem add_message_msgs (s : MsgModel) (c : Int) (m : Msg) :
    (add_message s c m).msgs c = Function.update (s.msgs c) m.id (some m) := by
  unfold add_message
  simp only [Function.update_same]

theorem add_message_msgs_other (s : MsgModel) (c : Int) (m : Msg)
    {c' : Int} (h : c' ≠ c) : (add_message s c m).msgs c' = s.msgs c' := by
  unfold add_message
  simp only [Function.update_noteq h]

theorem add_message_current_msgs (s : MsgModel) (c : Int) (m : Msg) :
    (add_message s c m).current_msgs = s.current_msgs := rfl

/-- The new index is a permutation of the old one with the new id in
front, duplicate or not. -/
theorem add_message_perm (s : MsgModel) (c : Int) (m : Msg) :
    List.Perm ((add_message s c m).msg_ids c) (m.id :: s.msg_ids c) := by
  rw [add_message_msg_ids]
  cases h : s.msg_ids c with
  | nil => simp
  | cons hd tl =>
    by_cases hlt : m.id < hd
    · simpa [hlt] using sortDescInt_perm (m.id :: hd :: tl)
    · simp [hlt]

/-! ## Preservation of the index invariant -/

theorem msgIndexInv_init : MsgIndexInv initMsgModel := by
  intro c
  refine ⟨List.sorted_nil, fun m => ?_⟩
  simp [initMsgModel]

/-- Two states with the same maps and indexes share the index
invariant. -/
theorem msgIndexInv_of_eq {s t : MsgModel} (h1 : t.msgs = s.msgs)
    (h2 : t.msg_ids = s.msg_ids) (hInv : MsgIndexInv s) : MsgIndexInv t := by
  intro c
  rw [h1, h2]
  exact hInv c

/-- `add_message` with an id that is not yet indexed preserves the index
invariant (the amended form of claim C1's `add` case). -/
theorem add_message_inv {s : MsgModel} {c : Int} {m : Msg}
    (hInv : MsgIndexInv s) (hF : m.id ∉ s.msg_ids c) :
    MsgIndexInv (add_message s c m) := by
  intro chat
  by_cases hc : chat = c
  · subst hc
    constructor
    · rw [add_message_msg_ids]
      rcases h : s.msg_ids chat with _ | ⟨hd, tl⟩
      · simp
      · have hs := (hInv chat).1
        rw [h] at hs hF
        by_cases hlt : m.id < hd
        · simp only [hlt, if_true]
          exact sortDescInt_sorted_gt (List.nodup_cons.mpr ⟨hF, hs.nodup⟩)
        · simp only [hlt, if_false]
          have hne : m.id ≠ hd := fun e => hF (e ▸ List.mem_cons_self _ _)
          have hgt : m.id > hd := lt_of_le_of_ne (not_lt.mp hlt) (Ne.symm hne)
          refine List.sorted_cons.mpr ⟨fun b hb => ?_, hs⟩
          rcases List.mem_cons.mp hb with rfl | hb
          · exact hgt
          · exact lt_trans (List.rel_of_sorted_cons hs b hb) hgt
    · intro x
      have hperm := add_message_perm s chat m
      rw [hperm.mem_iff, add_message_msgs]
      by_cases hx : x = m.id
      · subst hx
        simp [Function.update_same]
      · simp only [List.mem_cons, Function.update_noteq hx]
        rw [(hInv chat).2 x]
        simp [hx]
  · constructor
    · rw [add_message_msg_ids_other s c m hc]
      exact (hInv chat).1
    · intro x
      rw [add_message_msg_ids_other s c m hc, add_message_msgs_other s c m hc]
      exact (hInv chat).2 x

/-- One step of the `remove_messages` loop (erase from the index, pop
from the map) preserves the index invariant; unknown ids are tolerated. -/
theorem remove_step_inv {s : MsgModel} {c : Int} (hInv : MsgIndexInv s) (msg_id : Int) :
    MsgIndexInv
      { s with
        msg_ids := Function.update s.msg_ids c ((s.msg_ids c).erase msg_id)
        msgs := Function.update s.msgs c (Function.update (s.msgs c) msg_id none) } := by
  intro chat
  by_cases hc : chat = c
  · subst hc
    constructor
    · simp only [Function.update_same]
      exact List.Pairwise.sublist ((s.msg_ids chat).erase_sublist msg_id) (hInv chat).1
    · intro x
      simp only [Function.update_same]
      have hnd : (s.msg_ids chat).Nodup := (hInv chat).1.nodup
      rw [hnd.mem_erase_iff]
      by_cases hx : x = msg_id
      · subst hx
        simp [Function.update_same]
      · rw [Function.update_noteq hx, ← (hInv chat).2 x]
        simp [hx]
  · constructor
    · simp only [Function.update_noteq hc]
      exact (hInv chat).1
    · intro x
      simp only [Function.update_noteq hc]
      exact (hInv chat).2 x

theorem remove_messages_inv {c : Int} :
    ∀ (ids : List Int) (s : MsgModel), MsgIndexInv s →
      MsgIndexInv (remove_messages s c ids)
  | [], _, hInv => hInv
  | _ :: rest, _, hInv =>
    remove_messages_inv rest _ (remove_step_inv hInv _)

theorem foldl_add_message_inv {c : Int} :
    ∀ (fetched : List Msg) (s : MsgModel), MsgIndexInv s →
      freshAdds s c fetched = true →
      MsgIndexInv (fetched.foldl (fun st m => add_message st c m) s) := by
  intro fetched
  induction fetched with
  | nil => exact fun s hInv _ => hInv
  | cons m rest ih =>
    intro s hInv hF
    rw [freshAdds, Bool.and_eq_true, Bool.not_eq_true', decide_eq_false_iff_not] at hF
    exact ih _ (add_message_inv hInv hF.1) hF.2

theorem fetch_msgs_store_inv {s : MsgModel} {c : Int} {fetched : List Msg}
    {offset limit : Nat} (hInv : MsgIndexInv s)
    (hF : offset + limit > (s.msg_ids c).length → freshAdds s c fetched = true) :
    MsgIndexInv (fetch_msgs_store s c fetched offset limit) := by
  unfold fetch_msgs_store
  split
  · rename_i hgt
    exact foldl_add_message_inv fetched s hInv (hF hgt)
  · exact hInv

/-- The cursor-only operations do not touch the maps or the indexes. -/
theorem next_msg_msgs_ids (s : MsgModel) (c : Int) (k : Nat) :
    (next_msg s c k).1.msgs = s.msgs ∧ (next_msg s c k).1.msg_ids = s.msg_ids := by
  by_cases h : s.current_msgs c = 0 <;> simp [next_msg, h]

theorem prev_msg_msgs_ids (s : MsgModel) (c : Int) (k : Nat) :
    (prev_msg s c k).1.msgs = s.msgs ∧ (prev_msg s c k).1.msg_ids = s.msg_ids := by
  by_cases h : s.current_msgs c + k < (s.msg_ids c).length <;> simp [prev_msg, h]

theorem jump_bottom_msgs_ids (s : MsgModel) (c : Int) :
    (jump_bottom s c).1.msgs = s.msgs ∧ (jump_bottom s c).1.msg_ids = s.msg_ids := by
  by_cases h : s.current_msgs c = 0 <;> simp [jump_bottom, h]

theorem jump_to_msgs_ids {s s2 : MsgModel} {c m : Int} {b : Bool}
    (h : jump_to_msg_by_id s c m = some (s2, b)) :
    s2.msgs = s.msgs ∧ s2.msg_ids = s.msg_ids := by
  unfold jump_to_msg_by_id at h
  rcases hidx : listIndex m (s.msg_ids c) with _ | i <;> rw [hidx] at h
  · exact absurd h (by simp)
  · dsimp only at h
    split at h <;>
    · rw [Option.some_inj, Prod.mk.injEq] at h
      rw [← h.1]
      exact ⟨rfl, rfl⟩

/-- Any single operation whose `add_message` ids are fresh preserves the
index invariant. -/
theorem applyMsgOp_inv {s s2 : MsgModel} {op : MsgOp} (hInv : MsgIndexInv s)
    (hF : freshOp s op = true) (h : applyMsgOp s op = some s2) : MsgIndexInv s2 := by
  cases op with
  | add c m =>
    injection h with h
    rw [freshOp, Bool.not_eq_true', decide_eq_false_iff_not] at hF
    exact h ▸ add_message_inv hInv hF
  | remove c ids =>
    injection h with h
    exact h ▸ remove_messages_inv ids s hInv
  | fetchOp c fetched offset limit =>
    injection h with h
    have hF2 : (if offset + limit > (s.msg_ids c).length then freshAdds s c fetched
        else true) = true := hF
    refine h ▸ fetch_msgs_store_inv hInv fun hgt => ?_
    rwa [if_pos hgt] at hF2
  | next c k =>
    injection h with h
    exact msgIndexInv_of_eq (h ▸ (next_msg_msgs_ids s c k).1)
      (h ▸ (next_msg_msgs_ids s c k).2) hInv
  | prev c k =>
    injection h with h
    exact msgIndexInv_of_eq (h ▸ (prev_msg_msgs_ids s c k).1)
      (h ▸ (prev_msg_msgs_ids s c k).2) hInv
  | bottom c =>
    injection h with h
    exact msgIndexInv_of_eq (h ▸ (jump_bottom_msgs_ids s c).1)
      (h ▸ (jump_bottom_msgs_ids s c).2) hInv
  | jump c m =>
    simp only [applyMsgOp] at h
    rcases hj : jump_to_msg_by_id s c m with _ | ⟨s3, b⟩ <;> rw [hj] at h
    · exact absurd h (by simp)
    · simp only [Option.map_some'] at h
      injection h with h
      have h2 := jump_to_msgs_ids hj
      exact msgIndexInv_of_eq (h ▸ h2.1) (h ▸ h2.2) hInv

/-! ## Claim C1 -/

/-- The store reached by the duplicate-add sequence of C1's
counterexample. -/
def c1bad : MsgModel :=
  (applyMsgOps initMsgModel [.add 0 ⟨1, true⟩, .add 0 ⟨1, true⟩]).getD initMsgModel

/-- C1 (counterexample): the claim as stated is false.  `add_message`
performs no duplicate check (tg/models.py:547-554), so adding the same
message twice leaves the index `[1, 1]`, which is not strictly
decreasing. -/
theorem c1_index_invariant_counterexample :
    applyMsgOps initMsgModel [.add 0 ⟨1, true⟩, .add 0 ⟨1, true⟩] = some c1bad ∧
      c1bad.msg_ids 0 = [1, 1] ∧ ¬ MsgIndexInv c1bad := by
  refine ⟨rfl, by decide, fun h => ?_⟩
  have h1 := (h 0).1
  rw [show c1bad.msg_ids 0 = [1, 1] from by decide] at h1
  have h2 : ¬ List.Sorted (· > ·) ([1, 1] : List Int) := by
    simp [List.Sorted]
  exact h2 h1

/-- C1 (amended): after any sequence of message-store operations in which
every id handed to `add_message` (directly or through `fetch_msgs`) is
not yet in the target chat's index, every per-chat index is strictly
decreasing with unique ids and its set of ids equals the key set of the
per-chat map. -/
theorem c1_index_invariant_amended :
    ∀ (ops : List MsgOp) (s s2 : MsgModel), MsgIndexInv s →
      freshRun s ops = true → applyMsgOps s ops = some s2 → MsgIndexInv s2 := by
  intro ops
  induction ops with
  | nil =>
    intro s s2 hInv _ hRun
    rw [applyMsgOps] at hRun
    injection hRun with hRun
    exact hRun ▸ hInv
  | cons op rest ih =>
    intro s s2 hInv hFresh hRun
    rw [applyMsgOps] at hRun
    rcases hop : applyMsgOp s op with _ | s3 <;> rw [hop] at hRun
    · exact absurd hRun (by simp)
    · rw [freshRun, Bool.and_eq_true] at hFresh
      have hF1 := hFresh.1
      have hF2 := hFresh.2
      rw [hop] at hF2
      exact ih s3 s2 (applyMsgOp_inv hInv hF1 hop) hF2 hRun

/-- The store reached by the fresh run used to witness C1's amended
theorem: two out-of-order adds (forcing the re-sort), a paging fetch and
a removal. -/
def c1ops : List MsgOp :=
  [.add 0 ⟨2, true⟩, .add 0 ⟨5, true⟩, .fetchOp 0 [⟨1, true⟩, ⟨0, true⟩] 0 10,
    .remove 0 [2], .add 7 ⟨3, true⟩]

def c1good : MsgModel := (applyMsgOps initMsgModel c1ops).getD initMsgModel

/-- Witness: the amended C1 theorem applied to a concrete fresh run. -/
theorem c1_index_invariant_amended_witness : MsgIndexInv c1good :=
  c1_index_invariant_amended c1ops initMsgModel c1good msgIndexInv_init
    (by decide) rfl

/-! ## Claim C2 -/

/-- The one-message store of C2's counterexample. -/
def c2s : MsgModel := add_message initMsgModel 0 ⟨1, true⟩

/-- C2 (counterexample): duplicate `add_message` is not idempotent.  With
id 1 already present, adding the same message again changes the index
from `[1]` to `[1, 1]`. -/
theorem c2_idempotent_counterexample :
    (1 : Int) ∈ c2s.msg_ids 0 ∧ c2s.msg_ids 0 = [1] ∧
      (add_message c2s 0 ⟨1, true⟩).msg_ids 0 = [1, 1] := by
  refine ⟨by decide, by decide, by decide⟩

/-- C2 (amended): a duplicate `add_message` overwrites the map entry with
the given record and leaves the cursor alone, but inserts the id a second
time, growing the per-chat index by one — the store is *not* left
unchanged. -/
theorem c2_duplicate_add_amended (s : MsgModel) (c : Int) (m : Msg)
    (hdup : m.id ∈ s.msg_ids c) :
    ((add_message s c m).msg_ids c).length = (s.msg_ids c).length + 1 ∧
      (add_message s c m).msgs c m.id = some m ∧
      (add_message s c m).current_msgs = s.current_msgs ∧
      ¬ ((add_message s c m).msg_ids c).Nodup := by
  have hperm := add_message_perm s c m
  refine ⟨by rw [hperm.length_eq]; rfl, ?_, rfl, ?_⟩
  · rw [add_message_msgs]
    simp [Function.update_same]
  · intro hnd
    have : (m.id :: s.msg_ids c).Nodup := hperm.nodup_iff.mp hnd
    exact (List.nodup_cons.mp this).1 hdup

/-- Witness for the amended C2 theorem at the counterexample store. -/
theorem c2_duplicate_add_amended_witness :
    ((add_message c2s 0 ⟨1, true⟩).msg_ids 0).length = (c2s.msg_ids 0).length + 1 ∧
      (add_message c2s 0 ⟨1, true⟩).msgs 0 1 = some ⟨1, true⟩ ∧
      (add_message c2s 0 ⟨1, true⟩).current_msgs = c2s.current_msgs ∧
      ¬ ((add_message c2s 0 ⟨1, true⟩).msg_ids 0).Nodup :=
  c2_duplicate_add_amended c2s 0 ⟨1, true⟩ (by decide)

/-! ## Claim C4 -/

theorem cursorInv_init : CursorInv initMsgModel := fun _ => Or.inl rfl

theorem listIndex_lt_length {x : Int} :
    ∀ {l : List Int} {i : Nat}, listIndex x l = some i → i < l.length := by
  intro l
  induction l with
  | nil => intro i h; exact absurd h (by simp [listIndex])
  | cons y t ih =>
    intro i h
    rw [listIndex] at h
    by_cases hy : y = x
    · rw [if_pos hy] at h
      injection h with h
      simp only [List.length_cons]
      omega
    · rw [if_neg hy] at h
      rcases ht : listIndex x t with _ | j <;> rw [ht] at h
      · exact absurd h (by simp)
      · simp only [Option.map_some'] at h
        injection h with h
        have := ih ht
        simp only [List.length_cons]
        omega

theorem add_message_cursorInv {s : MsgModel} {c : Int} {m : Msg}
    (hInv : CursorInv s) : CursorInv (add_message s c m) := by
  intro chat
  rw [add_message_current_msgs]
  by_cases hc : chat = c
  · subst hc
    have hlen : ((add_message s chat m).msg_ids chat).length =
        (s.msg_ids chat).length + 1 := by
      rw [(add_message_perm s chat m).length_eq]
      rfl
    rcases hInv chat with h | h
    · exact Or.inl h
    · refine Or.inr ?_
      rw [hlen]
      omega
  · rw [add_message_msg_ids_other s c m hc]
    exact hInv chat

theorem next_msg_cursorInv {s : MsgModel} {c : Int} {k : Nat}
    (hInv : CursorInv s) : CursorInv (next_msg s c k).1 := by
  intro chat
  by_cases h : s.current_msgs c = 0 <;> simp only [next_msg, h, if_true, if_false]
  · exact hInv chat
  · by_cases hc : chat = c
    · subst hc
      rw [Function.update_same]
      rcases hInv chat with h0 | hlt
      · exact absurd h0 h
      · exact Or.inr (by omega)
    · rw [Function.update_noteq hc]
      exact hInv chat

theorem prev_msg_cursorInv {s : MsgModel} {c : Int} {k : Nat}
    (hInv : CursorInv s) : CursorInv (prev_msg s c k).1 := by
  intro chat
  by_cases h : s.current_msgs c + k < (s.msg_ids c).length <;>
    simp only [prev_msg, h, if_true, if_false]
  · by_cases hc : chat = c
    · subst hc
      rw [Function.update_same]
      exact Or.inr h
    · rw [Function.update_noteq hc]
      exact hInv chat
  · exact hInv chat

theorem jump_bottom_cursorInv {s : MsgModel} {c : Int}
    (hInv : CursorInv s) : CursorInv (jump_bottom s c).1 := by
  intro chat
  by_cases h : s.current_msgs c = 0 <;> simp only [jump_bottom, h, if_true, if_false]
  · exact hInv chat
  · by_cases hc : chat = c
    · subst hc
      rw [Function.update_same]
      exact Or.inl rfl
    · rw [Function.update_noteq hc]
      exact hInv chat

theorem jump_to_cursorInv {s s2 : MsgModel} {c m : Int} {b : Bool}
    (hInv : CursorInv s) (h : jump_to_msg_by_id s c m = some (s2, b)) :
    CursorInv s2 := by
  unfold jump_to_msg_by_id at h
  rcases hidx : listIndex m (s.msg_ids c) with _ | i <;> rw [hidx] at h
  · exact absurd h (by simp)
  · dsimp only at h
    split at h <;> rw [Option.some_inj, Prod.mk.injEq] at h <;> rw [← h.1]
    · intro chat
      dsimp only
      by_cases hc : chat = c
      · subst hc
        rw [Function.update_same]
        exact Or.inr (listIndex_lt_length hidx)
      · rw [Function.update_noteq hc]
        exact hInv chat
    · exact hInv

/-- Any single C4 operation (no `remove_messages`, no paging fetch)
preserves the cursor invariant. -/
theorem applyMsgOp_cursorInv {s s2 : MsgModel} {op : MsgOp} (hInv : CursorInv s)
    (hop : noRemove [op] = true) (h : applyMsgOp s op = some s2) : CursorInv s2 := by
  cases op with
  | add c m =>
    injection h with h
    exact h ▸ add_message_cursorInv hInv
  | remove c ids => exact absurd hop (by simp [noRemove])
  | fetchOp c fetched offset limit => exact absurd hop (by simp [noRemove])
  | next c k =>
    injection h with h
    exact h ▸ next_msg_cursorInv hInv
  | prev c k =>
    injection h with h
    exact h ▸ prev_msg_cursorInv hInv
  | bottom c =>
    injection h with h
    exact h ▸ jump_bottom_cursorInv hInv
  | jump c m =>
    simp only [applyMsgOp] at h
    rcases hj : jump_to_msg_by_id s c m with _ | ⟨s3, b⟩ <;> rw [hj] at h
    · exact absurd h (by simp)
    · simp only [Option.map_some'] at h
      injection h with h
      exact h ▸ jump_to_cursorInv hInv hj

/-- The store reached by C4's counterexample run: two messages, cursor
moved up to 1, then the whole tail removed. -/
def c4bad : MsgModel :=
  (applyMsgOps initMsgModel
    [.add 0 ⟨2, true⟩, .add 0 ⟨1, true⟩, .prev 0 1, .remove 0 [2]]).getD initMsgModel

/-- C4 (counterexample): the claim as stated is false.
`remove_messages` (tg/models.py:538-545) never clamps the cursor: after
removing id 2 the index is `[1]` but the cursor is still 1, outside
`[0, 1)`. -/
theorem c4_cursor_counterexample :
    applyMsgOps initMsgModel
        [.add 0 ⟨2, true⟩, .add 0 ⟨1, true⟩, .prev 0 1, .remove 0 [2]] = some c4bad ∧
      c4bad.msg_ids 0 = [1] ∧ c4bad.current_msgs 0 = 1 ∧
      ¬ (c4bad.current_msgs 0 < (c4bad.msg_ids 0).length) := by
  refine ⟨rfl, by decide, by decide, by decide⟩

/-- C4 (amended): the cursor defaults to 0, and stays within
`[0, len(msg_ids[chat_id]))` (whenever the index is non-empty) under any
sequence of `add_message`, `next_msg`, `prev_msg`, `jump_bottom` and
`jump_to_msg_by_id`; `remove_messages` must be excluded, as it can strand
the cursor past the end of the shrunken index. -/
theorem c4_cursor_amended :
    ∀ (ops : List MsgOp) (s s2 : MsgModel), CursorInv s →
      noRemove ops = true → applyMsgOps s ops = some s2 →
      (∀ c : Int, initMsgModel.current_msgs c = 0) ∧
        ∀ c : Int, s2.msg_ids c ≠ [] →
          s2.current_msgs c < (s2.msg_ids c).length := by
  intro ops
  induction ops with
  | nil =>
    intro s s2 hInv _ hRun
    rw [applyMsgOps] at hRun
    injection hRun with hRun
    subst hRun
    refine ⟨fun _ => rfl, fun c hne => ?_⟩
    rcases hInv c with h | h
    · rw [h]
      exact List.length_pos.mpr hne
    · exact h
  | cons op rest ih =>
    intro s s2 hInv hOps hRun
    rw [applyMsgOps] at hRun
    rcases hop : applyMsgOp s op with _ | s3 <;> rw [hop] at hRun
    · exact absurd hRun (by simp)
    · have hop1 : noRemove [op] = true := by
        cases op <;> first
          | rfl
          | exact absurd hOps (by simp [noRemove])
      have hrest : noRemove rest = true := by
        cases op <;> first
          | exact hOps
          | exact absurd hOps (by simp [noRemove])
      exact ih s3 s2 (applyMsgOp_cursorInv hInv hop1 hop) hrest hRun

/-- The store of C4's amended-theorem witness: adds, cursor motion in
both directions, a jump to a non-zero position and a jump to bottom. -/
def c4ops : List MsgOp :=
  [.add 0 ⟨2, true⟩, .add 0 ⟨5, true⟩, .add 0 ⟨1, true⟩, .prev 0 2,
    .next 0 1, .jump 0 1, .bottom 0, .prev 0 1]

def c4good : MsgModel := (applyMsgOps initMsgModel c4ops).getD initMsgModel

/-- Witness: the amended C4 theorem applied to a concrete run. -/
theorem c4_cursor_amended_witness :
    (∀ c : Int, initMsgModel.current_msgs c = 0) ∧
      ∀ c : Int, c4good.msg_ids c ≠ [] →
        c4good.current_msgs c < (c4good.msg_ids c).length :=
  c4_cursor_amended c4ops initMsgModel c4good cursorInv_init (by decide) rfl

/-! ## Claim C7 -/

/-- A store whose chat 0 has index `[5, 3]` and cursor 1: the failing
input for `jump_to_msg_by_id`. -/
def c7s : MsgModel where
  msgs := fun _ _ => none
  current_msgs := fun _ => 1
  not_found := ∅
  msg_ids := fun c => if c = 0 then [5, 3] else []

/-- C7 (the code bug evaluated at its failing input): id 5 is present in
the index at position 0, yet `jump_to_msg_by_id` reports failure and
leaves the cursor at 1.  The source tests the walrus-assigned position
for truthiness (`if index := self.msg_ids[chat_id].index(msg_id):`,
tg/models.py:501), so position 0 falls through to `return False`. -/
theorem c7_jump_position_zero_bug :
    (5 : Int) ∈ c7s.msg_ids 0 ∧ listIndex 5 (c7s.msg_ids 0) = some 0 ∧
      (jump_to_msg_by_id c7s 0 5).map (fun r => (r.1.current_msgs 0, r.2)) =
        some (1, false) := by
  refine ⟨by decide, by decide, by decide⟩

/-! ## Claim C6 -/

/-- Message store with id 1 cached in chat 0, for C6's witness. -/
def c6s : MsgModel := add_message initMsgModel 0 ⟨1, true⟩

/-- C6 (counterexample): the claim as stated is false.  On a cache miss
with a successful provider response, `get_message` (tg/models.py:526-536)
returns `result.update` without storing it, so the very next
`get_message` for the same id calls the provider again. -/
theorem c6_get_message_counterexample :
    (get_message initMsgModel 0 9 (some ⟨9, true⟩)).2.2 = true ∧
      (get_message initMsgModel 0 9 (some ⟨9, true⟩)).1.msgs 0 9 = none ∧
      (get_message ((get_message initMsgModel 0 9 (some ⟨9, true⟩)).1) 0 9
          (some ⟨9, true⟩)).2.2 = true := by
  refine ⟨by decide, by decide, by decide⟩

/-- C6 (amended): for `msg_id` not in `not_found`, `get_message` returns
the cached record without a provider call when present; on a miss it
calls the provider and either returns the fetched record *without caching
it* — so a repeated `get_message` for the same id issues another provider
call — or, on a provider error, records the id in `not_found` and returns
nothing. -/
theorem c6_get_message_amended (s : MsgModel) (c mid : Int)
    (resp resp2 : Option Msg) (hnf : mid ∉ s.not_found) :
    (∀ m, s.msgs c mid = some m →
        get_message s c mid resp = (s, some m, false)) ∧
      (∀ m, s.msgs c mid = none → resp = some m →
        get_message s c mid resp = (s, some m, true) ∧
          (get_message ((get_message s c mid resp).1) c mid resp2).2.2 = true) ∧
      (s.msgs c mid = none → resp = none →
        get_message s c mid resp =
          ({ s with not_found := insert mid s.not_found }, none, true)) := by
  refine ⟨fun m hm => ?_, fun m hm hr => ?_, fun hm hr => ?_⟩
  · unfold get_message
    rw [if_neg hnf, hm]
  · have h1 : get_message s c mid resp = (s, some m, true) := by
      unfold get_message
      rw [if_neg hnf, hm, hr]
    refine ⟨h1, ?_⟩
    rw [h1]
    unfold get_message
    rw [if_neg hnf, hm]
    cases resp2 <;> rfl
  · unfold get_message
    rw [if_neg hnf, hm, hr]

/-- Witness: the amended C6 theorem at a store that caches id 1 — the
cached branch, the miss-success branch for id 2 (repeated provider call
included) and the miss-error branch for id 2 are all exercised. -/
theorem c6_get_message_amended_witness :
    (∀ m, c6s.msgs 0 2 = some m →
        get_message c6s 0 2 (some ⟨2, true⟩) = (c6s, some m, false)) ∧
      (∀ m, c6s.msgs 0 2 = none → (some (⟨2, true⟩ : Msg)) = some m →
        get_message c6s 0 2 (some ⟨2, true⟩) = (c6s, some m, true) ∧
          (get_message ((get_message c6s 0 2 (some ⟨2, true⟩)).1) 0 2
              none).2.2 = true) ∧
      (c6s.msgs 0 2 = none → (some (⟨2, true⟩ : Msg)) = none →
        get_message c6s 0 2 (some ⟨2, true⟩) =
          ({ c6s with not_found := insert 2 c6s.not_found }, none, true)) :=
  c6_get_message_amended c6s 0 2 (some ⟨2, true⟩) none (by decide)

/-! ## Claim C9: reply quoting (tg/controllers.py:897-915)

Python strings are modelled as `List Char`; `split("\n")`, `"\n".join`,
`startswith` and `strip()` are the functions below. -/

/-- Python `str.split("\n")`. -/
def splitLines : List Char → List (List Char)
  | [] => [[]]
  | c :: rest =>
    if c = '\n' then [] :: splitLines rest
    else
      match splitLines rest with
      | [] => [[c]]
      | l :: ls => (c :: l) :: ls

/-- Python `"\n".join(lines)`. -/
def joinLines : List (List Char) → List Char
  | [] => []
  | [l] => l
  | l :: ls => l ++ '\n' :: joinLines ls

/-- Python `str.strip()`: drop whitespace from both ends. -/
def pyStrip (s : List Char) : List Char :=
  ((s.dropWhile Char.isWhitespace).reverse.dropWhile Char.isWhitespace).reverse

/-- `REPLY_MSG_PREFIX = "# >"` (tg/controllers.py:35). -/
def replyMsgMark : List Char := ['#', ' ', '>']

/-- `insert_replied_msg` (tg/controllers.py:897-905) applied to the
message's body text: prefix every line of the body with `"# > "` and
append a final line holding a single space (an empty body yields `""`
because Python tests the extracted text for truthiness). -/
def insert_replied_msg (text : List Char) : List Char :=
  if text = [] then []
  else
    joinLines ((splitLines text).map (fun line => replyMsgMark ++ ' ' :: line)) ++
      ['\n', ' ']

/-- `strip_replied_msg` (tg/controllers.py:908-915): drop every line that
starts with `"# >"`. -/
def strip_replied_msg (msg : List Char) : List Char :=
  joinLines ((splitLines msg).filter (fun line => ! replyMsgMark.isPrefixOf line))

theorem splitLines_ne_nil : ∀ s : List Char, splitLines s ≠ [] := by
  intro s
  cases s with
  | nil => simp [splitLines]
  | cons c rest =>
    rw [splitLines]
    by_cases h : c = '\n'
    · simp [h]
    · rw [if_neg h]
      rcases hs : splitLines rest with _ | ⟨l, ls⟩ <;> simp

theorem newline_not_mem_splitLines :
    ∀ (s : List Char) (l : List Char), l ∈ splitLines s → '\n' ∉ l := by
  intro s
  induction s with
  | nil =>
    intro l hl
    rw [splitLines, List.mem_singleton] at hl
    simp [hl]
  | cons c rest ih =>
    intro l hl
    rw [splitLines] at hl
    by_cases h : c = '\n'
    · rw [if_pos h, List.mem_cons] at hl
      rcases hl with rfl | hl
      · simp
      · exact ih l hl
    · rw [if_neg h] at hl
      rcases hs : splitLines rest with _ | ⟨l0, ls⟩
      · exact absurd hs (splitLines_ne_nil rest)
      · rw [hs, List.mem_cons] at hl
        rcases hl with rfl | hl
        · intro hmem
          rcases List.mem_cons.mp hmem with rfl | hmem
          · exact h rfl
          · exact ih l0 (hs ▸ List.mem_cons_self _ _) hmem
        · exact ih l (hs ▸ List.mem_cons_of_mem _ hl)

theorem splitLines_append_newline {x : List Char} (r : List Char)
    (hx : '\n' ∉ x) : splitLines (x ++ '\n' :: r) = x :: splitLines r := by
  induction x with
  | nil => simp [splitLines]
  | cons c x ih =>
    have hc : c ≠ '\n' := fun e => hx (e ▸ List.mem_cons_self _ _)
    have hx2 : '\n' ∉ x := fun e => hx (List.mem_cons_of_mem _ e)
    rw [List.cons_append, splitLines, if_neg hc, ih hx2]

theorem splitLines_joinLines_tail :
    ∀ xs : List (List Char), xs ≠ [] → (∀ l ∈ xs, '\n' ∉ l) →
      splitLines (joinLines xs ++ ['\n', ' ']) = xs ++ [[' ']] := by
  intro xs
  induction xs with
  | nil => intro h; exact absurd rfl h
  | cons x ys ih =>
    intro _ hnl
    cases ys with
    | nil =>
      rw [joinLines, List.cons_append,
        splitLines_append_newline [' '] (hnl x (List.mem_cons_self _ _))]
      rfl
    | cons y t =>
      have hjoin : joinLines (x :: y :: t) = x ++ '\n' :: joinLines (y :: t) := rfl
      rw [hjoin, List.append_assoc, List.cons_append,
        splitLines_append_newline _ (hnl x (List.mem_cons_self _ _)),
        ih (by simp) (fun l hl => hnl l (List.mem_cons_of_mem _ hl))]
      rfl

theorem mark_isPrefixOf_quoted (l : List Char) :
    replyMsgMark.isPrefixOf (replyMsgMark ++ ' ' :: l) = true := by
  simp [replyMsgMark, List.isPrefixOf]

/-- C9 (counterexample): the claim as stated is false.  For the body
`"hello"`, inserting the quoted reply and stripping it back yields the
single-space string `" "`, not the original body (nor the original body
up to surrounding whitespace). -/
theorem c9_round_trip_counterexample :
    strip_replied_msg (insert_replied_msg ['h', 'e', 'l', 'l', 'o']) = [' '] ∧
      pyStrip ['h', 'e', 'l', 'l', 'o'] = ['h', 'e', 'l', 'l', 'o'] ∧
      strip_replied_msg (insert_replied_msg ['h', 'e', 'l', 'l', 'o']) ≠
        pyStrip ['h', 'e', 'l', 'l', 'o'] ∧
      pyStrip (strip_replied_msg (insert_replied_msg ['h', 'e', 'l', 'l', 'o'])) ≠
        ['h', 'e', 'l', 'l', 'o'] := by
  refine ⟨by decide, by decide, by decide, by decide⟩

/-- C9 (amended): `strip_replied_msg` removes the *entire* inserted
quote: composing `insert_replied_msg` with `strip_replied_msg` leaves
only the trailing whitespace line, so after trimming surrounding
whitespace the result is the empty body, for every message body text. -/
theorem c9_round_trip_amended (text : List Char) :
    pyStrip (strip_replied_msg (insert_replied_msg text)) = [] := by
  by_cases h : text = []
  · subst h
    decide
  · rw [insert_replied_msg, if_neg h, strip_replied_msg,
      splitLines_joinLines_tail _ (by
        intro hmap
        exact splitLines_ne_nil text (List.map_eq_nil_iff.mp hmap))
        (by
          intro l hl
          rcases List.mem_map.mp hl with ⟨l0, hl0, rfl⟩
          intro hmem
          rcases List.mem_cons.mp hmem with e | hmem
          · exact absurd e.symm (by decide)
          · rcases List.mem_cons.mp hmem with e | hmem
            · exact absurd e.symm (by decide)
            · rcases List.mem_cons.mp hmem with e | hmem
              · exact absurd e.symm (by decide)
              · rcases List.mem_cons.mp hmem with e | hmem
                · exact absurd e.symm (by decide)
                · exact newline_not_mem_splitLines text l0 hl0 hmem)]
    rw [List.filter_append]
    have hnil : ((splitLines text).map
        (fun line => replyMsgMark ++ ' ' :: line)).filter
        (fun line => ! replyMsgMark.isPrefixOf line) = [] := by
      rw [List.filter_eq_nil_iff]
      intro a ha
      rcases List.mem_map.mp ha with ⟨l0, _, rfl⟩
      rw [mark_isPrefixOf_quoted]
      simp
    rw [hnil]
    decide

/-! ## Chat records and the chat store (`ChatModel`, tg/models.py:365-489) -/

/-- The slice of a chat record used by the store: its `id`, the derived
`order` field, and the orders of its `positions` list (the only part of a
position record the store reads is `positions[0]["order"]`). -/
structure Chat where
  id : Int
  order : Int
  positions : List Int
deriving DecidableEq, Repr

/-- The descending `(order, id)` comparison of `_sort_chats`
(tg/models.py:453-460): `sorted(…, key=lambda it: (it["order"], it["id"]),
reverse=True)`. -/
def chatGe (a b : Chat) : Prop :=
  b.order < a.order ∨ (b.order = a.order ∧ b.id ≤ a.id)

instance : DecidableRel chatGe := fun a b => by
  unfold chatGe
  infer_instance

instance : IsTotal Chat chatGe := by
  constructor
  intro a b
  unfold chatGe
  omega

instance : IsTrans Chat chatGe := by
  constructor
  intro a b c hab hbc
  unfold chatGe at hab hbc ⊢
  omega

/-- `ChatModel._sort_chats`. -/
def sortChats (l : List Chat) : List Chat := l.insertionSort chatGe

/-- State of `ChatModel` (tg/models.py:366-374): the active list `chats`,
the parked `inactive_chats` dict, the id set `chat_ids` mirroring the
active list, the full-list flag, and the fuzzy-search results with their
cursor. -/
structure ChatModel where
  chats : List Chat
  inactive_chats : Int → Option Chat
  chat_ids : Finset Int
  have_full_chat_list : Bool
  found_chats : List Int
  found_chat_idx : Nat

def initChatModel : ChatModel where
  chats := []
  inactive_chats := fun _ => none
  chat_ids := ∅
  have_full_chat_list := false
  found_chats := []
  found_chat_idx := 0

/-- `ChatModel.add_chat` (tg/models.py:436-451): dedup on `chat_ids`;
recompute `order` from `positions[0]` (0 when there are none); park
order-0 chats in `inactive_chats`; otherwise record the id, append and
re-sort. -/
def add_chat (s : ChatModel) (chat : Chat) : ChatModel :=
  if chat.id ∈ s.chat_ids then s
  else
    let chat2 :=
      match chat.positions with
      | p :: _ => { chat with order := p }
      | [] => { chat with order := 0 }
    if chat2.order = 0 then
      { s with inactive_chats := Function.update s.inactive_chats chat2.id (some chat2) }
    else
      { s with
        chat_ids := insert chat2.id s.chat_ids
        chats := sortChats (s.chats ++ [chat2]) }

/-- The in-place `chat.update({"order": o})` of `update_chat`'s active
loop: replace the order of the *first* list element with the given id,
returning the new list and the updated record, or `none` when no element
matches. -/
def setOrderFirst (chat_id new_order : Int) : List Chat → Option (List Chat × Chat)
  | [] => none
  | c :: rest =>
    if c.id = chat_id then
      some ({ c with order := new_order } :: rest, { c with order := new_order })
    else
      match setOrderFirst chat_id new_order rest with
      | some (rest2, c2) => some (c :: rest2, c2)
      | none => none

/-- `ChatModel.update_chat` (tg/models.py:462-489) for the order-only
patch `updates = {"order": new_order}`: update the first matching active
chat in place, then demote it (order 0) or re-sort; failing that, update a
parked chat and promote it through `add_chat` when its new order is
non-zero.  Returns the store and the method's boolean result. -/
def update_chat (s : ChatModel) (chat_id new_order : Int) : ChatModel × Bool :=
  match setOrderFirst chat_id new_order s.chats with
  | some (chats2, c2) =>
    if c2.order = 0 then
      ({ s with
          inactive_chats := Function.update s.inactive_chats chat_id (some c2)
          chat_ids := s.chat_ids.erase chat_id
          chats := chats2.filter (fun c => c.id ≠ chat_id) }, true)
    else
      ({ s with chats := sortChats chats2 }, true)
  | none =>
    match s.inactive_chats chat_id with
    | some c =>
      if ({ c with order := new_order } : Chat).order ≠ 0 then
        (add_chat
          { s with inactive_chats := Function.update s.inactive_chats chat_id none }
          { c with order := new_order }, true)
      else
        ({ s with
            inactive_chats :=
              Function.update s.inactive_chats chat_id
                (some { c with order := new_order }) }, false)
    | none => (s, false)

/-- `ChatModel.next_found_chat` (tg/models.py:376-382): step the found
cursor by ±1 modulo `len(found_chats)` — `none` models the
`ZeroDivisionError` raised by `% 0` on an empty list — and return the
element there.  Python `%` with a positive modulus is `Int.emod`. -/
def next_found_chat (s : ChatModel) (backwards : Bool) : Option (ChatModel × Int) :=
  match s.found_chats with
  | [] => none
  | _ :: _ =>
    let n := s.found_chats.length
    let new_idx :=
      (((s.found_chat_idx : Int) + (if backwards then -1 else 1)) % (n : Int)).toNat
    some ({ s with found_chat_idx := new_idx }, s.found_chats.getD new_idx 0)

/-- The backend's answers during `_load_next_chats`: the `get_chats`
result (`none` = error) and, for each returned id, the `get_chat`
record. -/
structure LoadEnv where
  get_chats : Option (List Int)
  get_chat : Int → Chat

/-- `ChatModel._load_next_chats` (tg/models.py:397-425): no-op when the
full list is already loaded (before any backend call); on a backend error
keep the state; an empty id page sets `have_full_chat_list`; otherwise
fetch and `add_chat` every id.  The second component records whether
`tg.get_chats` was called. -/
def load_next_chats (s : ChatModel) (env : LoadEnv) : ChatModel × Bool :=
  if s.have_full_chat_list then (s, false)
  else
    match env.get_chats with
    | none => (s, true)
    | some [] => ({ s with have_full_chat_list := true }, true)
    | some ids =>
      (ids.foldl (fun st i => add_chat st (env.get_chat i)) s, true)

/-- `ChatModel.fetch_chats` (tg/models.py:389-395): load another page
whenever `offset + limit > len(self.chats)`, then return the Python slice
`self.chats[offset:limit]` — note: *end index* `limit`, not a length.
Returns the store, the returned window, and whether `tg.get_chats` was
called. -/
def fetch_chats (s : ChatModel) (env : LoadEnv) (offset limit : Nat) :
    ChatModel × List Chat × Bool :=
  let step :=
    if offset + limit > s.chats.length then load_next_chats s env else (s, false)
  (step.1, (step.1.chats.drop offset).take (limit - offset), step.2)

/-! ## Claim C10 -/

theorem getD_mem_of_lt : ∀ {l : List Int} {n : Nat}, n < l.length → l.getD n 0 ∈ l := by
  intro l
  induction l with
  | nil => intro n h; simp at h
  | cons a t ih =>
    intro n h
    cases n with
    | zero => exact List.mem_cons_self _ _
    | succ n =>
      rw [List.getD_cons_succ]
      exact List.mem_cons_of_mem _ (ih (by simpa using h))

/-- C10: `next_found_chat` divides by `len(self.found_chats)`, so on an
empty found list it raises `ZeroDivisionError` (modelled as `none`); on a
non-empty list it always returns the element at the new cursor, an
element of `found_chats`, and it wraps around at both ends (0 stepped
backwards lands on the last index, the last index stepped forwards lands
on 0). -/
theorem c10_next_found_chat_safety (s : ChatModel) (backwards : Bool) :
    (s.found_chats = [] → next_found_chat s backwards = none) ∧
      (s.found_chats ≠ [] →
        ∃ s2 c, next_found_chat s backwards = some (s2, c) ∧
          c ∈ s.found_chats ∧ s2.found_chat_idx < s.found_chats.length ∧
          s2.found_chats = s.found_chats ∧
          c = s.found_chats.getD s2.found_chat_idx 0) ∧
      (s.found_chats ≠ [] → s.found_chat_idx = 0 → backwards = true →
        (next_found_chat s backwards).map (fun r => r.1.found_chat_idx) =
          some (s.found_chats.length - 1)) ∧
      (s.found_chats ≠ [] → s.found_chat_idx = s.found_chats.length - 1 →
        backwards = false →
        (next_found_chat s backwards).map (fun r => r.1.found_chat_idx) = some 0) := by
  by_cases hemp : s.found_chats = []
  · refine ⟨fun _ => ?_, fun hne => absurd hemp hne, fun hne => absurd hemp hne,
      fun hne => absurd hemp hne⟩
    unfold next_found_chat
    rw [hemp]
  · obtain ⟨a, t, hfc⟩ : ∃ a t, s.found_chats = a :: t := by
      cases h : s.found_chats with
      | nil => exact absurd h hemp
      | cons a t => exact ⟨a, t, rfl⟩
    have hpos : (0 : Int) < ((s.found_chats.length : Nat) : Int) := by
      rw [hfc]
      exact_mod_cast Nat.succ_pos t.length
    have hnfc : ∀ b : Bool, next_found_chat s b =
        some ({ s with found_chat_idx :=
            (((s.found_chat_idx : Int) + (if b then -1 else 1)) %
              (s.found_chats.length : Int)).toNat },
          s.found_chats.getD
            ((((s.found_chat_idx : Int) + (if b then -1 else 1)) %
              (s.found_chats.length : Int)).toNat) 0) := by
      intro b
      unfold next_found_chat
      rw [hfc]
    have hidx : ∀ b : Bool,
        ((((s.found_chat_idx : Int) + (if b then -1 else 1)) %
          (s.found_chats.length : Int)).toNat) < s.found_chats.length := by
      intro b
      have h1 : 0 ≤ ((s.found_chat_idx : Int) + (if b then -1 else 1)) %
          (s.found_chats.length : Int) := Int.emod_nonneg _ (by omega)
      have h2 : ((s.found_chat_idx : Int) + (if b then -1 else 1)) %
          (s.found_chats.length : Int) < (s.found_chats.length : Int) :=
        Int.emod_lt_of_pos _ hpos
      omega
    refine ⟨fun he => absurd he hemp, fun _ => ?_, fun _ h0 hb => ?_,
      fun _ hlast hb => ?_⟩
    · refine ⟨_, _, hnfc backwards, ?_, ?_, rfl, rfl⟩
      · exact getD_mem_of_lt (hidx backwards)
      · exact hidx backwards
    · rw [hb, hnfc true]
      simp only [Option.map_some']
      congr 1
      rw [h0]
      simp only [Nat.cast_zero, zero_add, if_true]
      have hmod : (-1 : Int) % (s.found_chats.length : Int) =
          (s.found_chats.length : Int) - 1 := by
        have h3 : (-1 : Int) % (s.found_chats.length : Int) =
            (-1 + (s.found_chats.length : Int) * 1) % (s.found_chats.length : Int) := by
          rw [Int.add_mul_emod_self_left]
        rw [h3, mul_one, Int.emod_eq_of_lt (by omega) (by omega)]
        omega
      rw [hmod]
      omega
    · rw [hb, hnfc false]
      simp only [Option.map_some']
      congr 1
      rw [hlast]
      have hlen1 : 1 ≤ s.found_chats.length := by
        rw [hfc]
        exact Nat.succ_le_succ (Nat.zero_le _)
      have hcast : ((s.found_chats.length - 1 : Nat) : Int) + (if false then -1 else 1) =
          (s.found_chats.length : Int) := by
        push_cast [hlen1]
        simp
      rw [hcast, Int.emod_self]
      rfl

/-- The found-chat store of C10's witness: three found chats with the
cursor on the last one. -/
def c10s : ChatModel :=
  { initChatModel with found_chats := [10, 20, 30], found_chat_idx := 2 }

/-- Witness: the C10 theorem applied to a concrete non-empty found
list. -/
theorem c10_next_found_chat_safety_witness :
    ∃ s2 c, next_found_chat c10s false = some (s2, c) ∧
      c ∈ c10s.found_chats ∧ s2.found_chat_idx < c10s.found_chats.length ∧
      s2.found_chats = c10s.found_chats ∧
      c = c10s.found_chats.getD s2.found_chat_idx 0 :=
  (c10_next_found_chat_safety c10s false).2.1 (by decide)

/-! ## Claim C5 -/

/-- The four-chat store of C5's counterexample; the full list is already
loaded. -/
def c5s : ChatModel :=
  { initChatModel with
    chats := [⟨4, 4, [4]⟩, ⟨3, 3, [3]⟩, ⟨2, 2, [2]⟩, ⟨1, 1, [1]⟩]
    chat_ids := {4, 3, 2, 1}
    have_full_chat_list := true }

def c5env : LoadEnv := ⟨none, fun i => ⟨i, 0, []⟩⟩

/-- C5 (counterexample): the claim as stated is false.  The source
returns the Python slice `self.chats[offset:limit]`
(tg/models.py:395) — `limit` is an *end index* — so `fetch_chats(1, 3)`
on four loaded chats returns 2 chats, not the 3-element window
`active[1..1+3]` the claim demands. -/
theorem c5_fetch_chats_counterexample :
    (fetch_chats c5s c5env 1 3).2.1 = [⟨3, 3, [3]⟩, ⟨2, 2, [2]⟩] ∧
      ((fetch_chats c5s c5env 1 3).1.chats.drop 1).take 3 =
        [⟨3, 3, [3]⟩, ⟨2, 2, [2]⟩, ⟨1, 1, [1]⟩] ∧
      (fetch_chats c5s c5env 1 3).2.1 ≠
        ((fetch_chats c5s c5env 1 3).1.chats.drop 1).take 3 := by
  refine ⟨by decide, by decide, by decide⟩

/-- C5 (amended): `fetch_chats` issues the backend `get_chats` call
exactly when `offset + limit > len(chats)` and the full list is not yet
loaded; when `offset + limit ≤ len(chats)` the store is untouched; and
the returned window is the Python slice `chats[offset:limit]` of the
post-load list — the slice whose *end index* (not length) is `limit`. -/
theorem c5_fetch_chats_amended (s : ChatModel) (env : LoadEnv) (offset limit : Nat) :
    ((fetch_chats s env offset limit).2.2 = true ↔
        offset + limit > s.chats.length ∧ s.have_full_chat_list = false) ∧
      (fetch_chats s env offset limit).2.1 =
        (((fetch_chats s env offset limit).1.chats.drop offset).take (limit - offset)) ∧
      (¬ (offset + limit > s.chats.length) → (fetch_chats s env offset limit).1 = s) := by
  refine ⟨?_, ?_, ?_⟩
  · unfold fetch_chats
    by_cases hg : offset + limit > s.chats.length
    · simp only [hg, if_true]
      unfold load_next_chats
      by_cases hf : s.have_full_chat_list
      · simp [hf]
      · rcases henv : env.get_chats with _ | ids
        · simp [hf, henv, hg]
        · cases ids <;> simp [hf, henv, hg]
    · simp [hg]
  · unfold fetch_chats
    by_cases hg : offset + limit > s.chats.length <;> simp [hg]
  · intro hg
    unfold fetch_chats
    simp [hg]

/-- Witness: the amended C5 theorem at the counterexample store, where
no load is triggered. -/
theorem c5_fetch_chats_amended_witness :
    ((fetch_chats c5s c5env 1 3).2.2 = true ↔
        1 + 3 > c5s.chats.length ∧ c5s.have_full_chat_list = false) ∧
      (fetch_chats c5s c5env 1 3).2.1 =
        (((fetch_chats c5s c5env 1 3).1.chats.drop 1).take (3 - 1)) ∧
      (¬ (1 + 3 > c5s.chats.length) → (fetch_chats c5s c5env 1 3).1 = c5s) :=
  c5_fetch_chats_amended c5s c5env 1 3

/-! ## Claim C3: the chat-store invariant -/

/-- The chat-store invariant of claim C3, together with the auxiliary
facts needed to push it through `update_chat`: the active list is sorted
descending by `(order, id)` with ids unique and positive orders; parked
chats have order 0 and sit under their own id; the two collections are
id-disjoint; `chat_ids` mirrors the active ids; and all stored position
orders are non-negative (they are unsigned in the remote protocol). -/
structure ChatInv (s : ChatModel) : Prop where
  sorted : List.Sorted chatGe s.chats
  active_pos : ∀ c ∈ s.chats, 0 < c.order
  inactive_zero : ∀ (i : Int) (c : Chat), s.inactive_chats i = some c → c.order = 0
  inactive_key : ∀ (i : Int) (c : Chat), s.inactive_chats i = some c → c.id = i
  disjoint : ∀ c ∈ s.chats, s.inactive_chats c.id = none
  ids_nodup : (s.chats.map Chat.id).Nodup
  ids_sync : ∀ i : Int, i ∈ s.chat_ids ↔ i ∈ s.chats.map Chat.id
  active_posns : ∀ c ∈ s.chats, ∀ p ∈ c.positions, 0 ≤ p
  inactive_posns : ∀ (i : Int) (c : Chat), s.inactive_chats i = some c →
    ∀ p ∈ c.positions, 0 ≤ p

theorem chatInv_init : ChatInv initChatModel := by
  constructor <;> simp [initChatModel]

theorem sortChats_perm (l : List Chat) : List.Perm (sortChats l) l :=
  List.perm_insertionSort _ l

theorem sortChats_sorted (l : List Chat) : List.Sorted chatGe (sortChats l) :=
  List.sorted_insertionSort _ l

theorem setOrderFirst_some {chat_id o : Int} :
    ∀ {l l2 : List Chat} {c2 : Chat}, setOrderFirst chat_id o l = some (l2, c2) →
      c2.id = chat_id ∧ c2.order = o ∧
        (∃ c0 ∈ l, c0.id = chat_id ∧ c2 = { c0 with order := o }) ∧
        l2.map Chat.id = l.map Chat.id ∧
        (∀ c ∈ l2, c = c2 ∨ c ∈ l) ∧
        l2.filter (fun c => c.id ≠ chat_id) = l.filter (fun c => c.id ≠ chat_id) := by
  intro l
  induction l with
  | nil => intro l2 c2 h; exact absurd h (by simp [setOrderFirst])
  | cons c rest ih =>
    intro l2 c2 h
    rw [setOrderFirst] at h
    by_cases hc : c.id = chat_id
    · rw [if_pos hc, Option.some_inj, Prod.mk.injEq] at h
      obtain ⟨h1, h2⟩ := h
      subst h2
      refine ⟨hc, rfl, ⟨c, List.mem_cons_self _ _, hc, rfl⟩, ?_, ?_, ?_⟩
      · rw [← h1]
        rfl
      · rw [← h1]
        intro x hx
        rcases List.mem_cons.mp hx with rfl | hx
        · exact Or.inl rfl
        · exact Or.inr (List.mem_cons_of_mem _ hx)
      · rw [← h1]
        simp [List.filter_cons, hc]
    · rw [if_neg hc] at h
      rcases hrec : setOrderFirst chat_id o rest with _ | ⟨rest2, c2x⟩ <;> rw [hrec] at h
      · exact absurd h (by simp)
      · rw [Option.some_inj, Prod.mk.injEq] at h
        obtain ⟨h1, h2⟩ := h
        subst h2
        obtain ⟨g1, g2, ⟨c0, hc0, hc0id, hc0eq⟩, g4, g5, g6⟩ := ih hrec
        refine ⟨g1, g2, ⟨c0, List.mem_cons_of_mem _ hc0, hc0id, hc0eq⟩, ?_, ?_, ?_⟩
        · rw [← h1]
          simp only [List.map_cons]
          rw [g4]
        · rw [← h1]
          intro x hx
          rcases List.mem_cons.mp hx with rfl | hx
          · exact Or.inr (List.mem_cons_self _ _)
          · rcases g5 x hx with h | h
            · exact Or.inl h
            · exact Or.inr (List.mem_cons_of_mem _ h)
        · rw [← h1, List.filter_cons, List.filter_cons]
          rw [g6]

theorem setOrderFirst_none {chat_id o : Int} :
    ∀ {l : List Chat}, setOrderFirst chat_id o l = none → ∀ c ∈ l, c.id ≠ chat_id := by
  intro l
  induction l with
  | nil => intro _ c hc; simp at hc
  | cons c rest ih =>
    intro h x hx
    rw [setOrderFirst] at h
    by_cases hc : c.id = chat_id
    · rw [if_pos hc] at h
      exact absurd h (by simp)
    · rw [if_neg hc] at h
      rcases hrec : setOrderFirst chat_id o rest with _ | p <;> rw [hrec] at h
      · rcases List.mem_cons.mp hx with rfl | hx
        · exact hc
        · exact ih hrec x hx
      · exact absurd h (by simp)

/-- Deleting an entry of `inactive_chats` preserves the invariant. -/
theorem chatInv_erase_inactive {s : ChatModel} (hInv : ChatInv s) (i : Int) :
    ChatInv { s with inactive_chats := Function.update s.inactive_chats i none } := by
  constructor
  · exact hInv.sorted
  · exact hInv.active_pos
  · intro j c hj
    dsimp only at hj
    by_cases hji : j = i
    · rw [hji, Function.update_same] at hj
      exact absurd hj (by simp)
    · rw [Function.update_noteq hji] at hj
      exact hInv.inactive_zero j c hj
  · intro j c hj
    dsimp only at hj
    by_cases hji : j = i
    · rw [hji, Function.update_same] at hj
      exact absurd hj (by simp)
    · rw [Function.update_noteq hji] at hj
      exact hInv.inactive_key j c hj
  · intro c hc
    dsimp only at hc ⊢
    by_cases hji : c.id = i
    · rw [hji, Function.update_same]
    · rw [Function.update_noteq hji]
      exact hInv.disjoint c hc
  · exact hInv.ids_nodup
  · exact hInv.ids_sync
  · exact hInv.active_posns
  · intro j c hj
    dsimp only at hj
    by_cases hji : j = i
    · rw [hji, Function.update_same] at hj
      exact absurd hj (by simp)
    · rw [Function.update_noteq hji] at hj
      exact hInv.inactive_posns j c hj

/-- `add_chat` preserves the invariant for a chat whose id is not parked
in `inactive_chats` and whose position orders are non-negative. -/
theorem add_chat_inv {s : ChatModel} {chat : Chat} (hInv : ChatInv s)
    (hpos : ∀ p ∈ chat.positions, 0 ≤ p)
    (hinact : s.inactive_chats chat.id = none) : ChatInv (add_chat s chat) := by
  unfold add_chat
  by_cases hid : chat.id ∈ s.chat_ids
  · rw [if_pos hid]
    exact hInv
  · rw [if_neg hid]
    have hnotin : chat.id ∉ s.chats.map Chat.id := fun h =>
      hid ((hInv.ids_sync chat.id).mpr h)
    set chat2 : Chat :=
      (match chat.positions with
        | p :: _ => { chat with order := p }
        | [] => { chat with order := 0 }) with hchat2
    have hc2id : chat2.id = chat.id := by
      rw [hchat2]
      cases chat.positions <;> rfl
    have hc2posns : chat2.positions = chat.positions := by
      rw [hchat2]
      cases chat.positions <;> rfl
    have hc2ord : 0 ≤ chat2.order := by
      rw [hchat2]
      cases hp : chat.positions with
      | nil => simp
      | cons p t => exact hpos p (hp ▸ List.mem_cons_self _ _)
    by_cases hz : chat2.order = 0
    · rw [if_pos hz]
      constructor
      · exact hInv.sorted
      · exact hInv.active_pos
      · intro j c hj
        dsimp only at hj
        by_cases hji : j = chat2.id
        · rw [hji, Function.update_same, Option.some_inj] at hj
          rw [← hj]
          exact hz
        · rw [Function.update_noteq hji] at hj
          exact hInv.inactive_zero j c hj
      · intro j c hj
        dsimp only at hj
        by_cases hji : j = chat2.id
        · rw [hji, Function.update_same, Option.some_inj] at hj
          rw [← hj, hji]
        · rw [Function.update_noteq hji] at hj
          exact hInv.inactive_key j c hj
      · intro c hc
        dsimp only at hc ⊢
        have hne : c.id ≠ chat2.id := by
          rw [hc2id]
          intro h
          exact hnotin (h ▸ List.mem_map_of_mem Chat.id hc)
        rw [Function.update_noteq hne]
        exact hInv.disjoint c hc
      · exact hInv.ids_nodup
      · exact hInv.ids_sync
      · exact hInv.active_posns
      · intro j c hj
        dsimp only at hj
        by_cases hji : j = chat2.id
        · rw [hji, Function.update_same, Option.some_inj] at hj
          rw [← hj, hc2posns]
          exact hpos
        · rw [Function.update_noteq hji] at hj
          exact hInv.inactive_posns j c hj
    · rw [if_neg hz]
      have hmem : ∀ c : Chat, c ∈ sortChats (s.chats ++ [chat2]) ↔
          c ∈ s.chats ∨ c = chat2 := by
        intro c
        rw [(sortChats_perm (s.chats ++ [chat2])).mem_iff]
        simp [List.mem_append]
      have hmapperm : List.Perm ((sortChats (s.chats ++ [chat2])).map Chat.id)
          (s.chats.map Chat.id ++ [chat2.id]) := by
        have := (sortChats_perm (s.chats ++ [chat2])).map Chat.id
        rwa [List.map_append] at this
      constructor
      · exact sortChats_sorted _
      · intro c hc
        rcases (hmem c).mp hc with h | rfl
        · exact hInv.active_pos c h
        · omega
      · exact hInv.inactive_zero
      · exact hInv.inactive_key
      · intro c hc
        rcases (hmem c).mp hc with h | rfl
        · exact hInv.disjoint c h
        · rw [hc2id]
          exact hinact
      · rw [hmapperm.nodup_iff]
        rw [List.nodup_append]
        refine ⟨hInv.ids_nodup, List.nodup_singleton _, ?_⟩
        intro x hx hx2
        rw [List.mem_singleton] at hx2
        rw [hx2, hc2id] at hx
        exact hnotin hx
      · intro i
        rw [Finset.mem_insert, hInv.ids_sync i, hmapperm.mem_iff]
        rw [List.mem_append, List.mem_singleton]
        tauto
      · intro c hc
        rcases (hmem c).mp hc with h | rfl
        · exact hInv.active_posns c h
        · rw [hc2posns]
          exact hpos
      · exact hInv.inactive_posns

/-- C3: after any `update_chat(chat_id, order)` call with a non-negative
order on a store satisfying the invariant, the invariant still holds: the
active list is sorted descending by `(order, id)`, every active chat has
`order > 0`, every inactive chat has `order == 0`, and no id occurs in
both collections (plus the bookkeeping facts carried by `ChatInv`). -/
theorem c3_update_chat_invariant (s : ChatModel) (chat_id new_order : Int)
    (hInv : ChatInv s) (hord : 0 ≤ new_order) :
    ChatInv (update_chat s chat_id new_order).1 := by
  unfold update_chat
  rcases hso : setOrderFirst chat_id new_order s.chats with _ | ⟨chats2, c2⟩ <;>
    dsimp only
  · -- chat_id is not in the active list
    rcases hin : s.inactive_chats chat_id with _ | c <;> dsimp only
    · exact hInv
    · by_cases hnz : ({ c with order := new_order } : Chat).order ≠ 0
      · rw [if_pos hnz]
        dsimp only
        have hkey : c.id = chat_id := hInv.inactive_key chat_id c hin
        refine add_chat_inv (chatInv_erase_inactive hInv chat_id)
          (hInv.inactive_posns chat_id c hin) ?_
        dsimp only
        rw [hkey, Function.update_same]
      · rw [if_neg hnz]
        dsimp only
        have hz : new_order = 0 := by
          by_contra hne
          exact hnz hne
        have hkey : c.id = chat_id := hInv.inactive_key chat_id c hin
        constructor
        · exact hInv.sorted
        · exact hInv.active_pos
        · intro j cx hj
          dsimp only at hj
          by_cases hji : j = chat_id
          · rw [hji, Function.update_same, Option.some_inj] at hj
            rw [← hj]
            exact hz
          · rw [Function.update_noteq hji] at hj
            exact hInv.inactive_zero j cx hj
        · intro j cx hj
          dsimp only at hj
          by_cases hji : j = chat_id
          · rw [hji, Function.update_same, Option.some_inj] at hj
            rw [← hj, hji]
            exact hkey
          · rw [Function.update_noteq hji] at hj
            exact hInv.inactive_key j cx hj
        · intro cx hcx
          dsimp only at hcx ⊢
          have hne : cx.id ≠ chat_id := setOrderFirst_none hso cx hcx
          rw [Function.update_noteq hne]
          exact hInv.disjoint cx hcx
        · exact hInv.ids_nodup
        · exact hInv.ids_sync
        · exact hInv.active_posns
        · intro j cx hj
          dsimp only at hj
          by_cases hji : j = chat_id
          · rw [hji, Function.update_same, Option.some_inj] at hj
            rw [← hj]
            exact hInv.inactive_posns chat_id c hin
          · rw [Function.update_noteq hji] at hj
            exact hInv.inactive_posns j cx hj
  · -- chat_id found in the active list and updated in place
    obtain ⟨hc2id, hc2ord, ⟨c0, hc0mem, hc0id, hc0eq⟩, hmap, hmem2, hfilter⟩ :=
      setOrderFirst_some hso
    by_cases hz : c2.order = 0
    · rw [if_pos hz]
      constructor
      · dsimp only
        rw [hfilter]
        exact List.Pairwise.sublist (List.filter_sublist _) hInv.sorted
      · intro cx hcx
        dsimp only at hcx
        rw [hfilter] at hcx
        exact hInv.active_pos cx (List.mem_of_mem_filter hcx)
      · intro j cx hj
        dsimp only at hj
        by_cases hji : j = chat_id
        · rw [hji, Function.update_same, Option.some_inj] at hj
          rw [← hj]
          exact hz
        · rw [Function.update_noteq hji] at hj
          exact hInv.inactive_zero j cx hj
      · intro j cx hj
        dsimp only at hj
        by_cases hji : j = chat_id
        · rw [hji, Function.update_same, Option.some_inj] at hj
          rw [← hj, hji]
          exact hc2id
        · rw [Function.update_noteq hji] at hj
          exact hInv.inactive_key j cx hj
      · intro cx hcx
        dsimp only at hcx ⊢
        rw [hfilter] at hcx
        have hne : cx.id ≠ chat_id := by
          have := List.of_mem_filter hcx
          simpa using this
        rw [Function.update_noteq hne]
        exact hInv.disjoint cx (List.mem_of_mem_filter hcx)
      · dsimp only
        rw [hfilter]
        exact List.Nodup.sublist (List.Sublist.map Chat.id (List.filter_sublist _))
          hInv.ids_nodup
      · intro i
        dsimp only
        rw [hfilter, Finset.mem_erase]
        simp only [List.mem_map, List.mem_filter, decide_eq_true_eq]
        constructor
        · rintro ⟨hne, hi⟩
          obtain ⟨cx, hcx, rfl⟩ := by
            simpa only [List.mem_map] using (hInv.ids_sync i).mp hi
          exact ⟨cx, ⟨hcx, hne⟩, rfl⟩
        · rintro ⟨cx, ⟨hcx, hne⟩, rfl⟩
          exact ⟨hne, (hInv.ids_sync _).mpr (List.mem_map_of_mem _ hcx)⟩
      · intro cx hcx
        dsimp only at hcx
        rw [hfilter] at hcx
        exact hInv.active_posns cx (List.mem_of_mem_filter hcx)
      · intro j cx hj
        dsimp only at hj
        by_cases hji : j = chat_id
        · rw [hji, Function.update_same, Option.some_inj] at hj
          rw [← hj, hc0eq]
          exact hInv.active_posns c0 hc0mem
        · rw [Function.update_noteq hji] at hj
          exact hInv.inactive_posns j cx hj
    · rw [if_neg hz]
      have hmem : ∀ x : Chat, x ∈ sortChats chats2 ↔ x ∈ chats2 := fun x =>
        (sortChats_perm chats2).mem_iff
      constructor
      · exact sortChats_sorted _
      · intro cx hcx
        dsimp only at hcx
        rcases hmem2 cx ((hmem cx).mp hcx) with rfl | h
        · rw [hc2ord] at hz ⊢
          omega
        · exact hInv.active_pos cx h
      · exact hInv.inactive_zero
      · exact hInv.inactive_key
      · intro cx hcx
        dsimp only at hcx ⊢
        rcases hmem2 cx ((hmem cx).mp hcx) with rfl | h
        · rw [hc2id, ← hc0id]
          exact hInv.disjoint c0 hc0mem
        · exact hInv.disjoint cx h
      · dsimp only
        rw [((sortChats_perm chats2).map Chat.id).nodup_iff, hmap]
        exact hInv.ids_nodup
      · intro i
        dsimp only
        rw [hInv.ids_sync i, ((sortChats_perm chats2).map Chat.id).mem_iff, hmap]
      · intro cx hcx
        dsimp only at hcx
        rcases hmem2 cx ((hmem cx).mp hcx) with rfl | h
        · rw [hc0eq]
          exact hInv.active_posns c0 hc0mem
        · exact hInv.active_posns cx h
      · exact hInv.inactive_posns

/-- A store with chat 7 parked inactive and chat 3 active, built through
`add_chat`, used to witness C3. -/
def c3s : ChatModel :=
  add_chat (add_chat initChatModel ⟨7, 0, []⟩) ⟨3, 0, [2]⟩

theorem chatInv_c3s : ChatInv c3s :=
  add_chat_inv (add_chat_inv chatInv_init (by simp) rfl) (by decide) rfl

/-- Witness: the C3 theorem applied to a concrete store and a concrete
order update (promoting the parked chat 7). -/
theorem c3_update_chat_invariant_witness : ChatInv (update_chat c3s 7 9).1 :=
  c3_update_chat_invariant c3s 7 9 chatInv_c3s (by decide)

/-! ## Claim C8: forwarding refused (tg/models.py:206-220,
tg/controllers.py:194-200) -/

/-- `ChatModel.id_by_index` (tg/models.py:384-387). -/
def id_by_index (s : ChatModel) (index : Nat) : Option Int :=
  if index ≥ s.chats.length then none
  else (s.chats.get? index).map Chat.id

/-- The slice of aggregate `Model` state (tg/models.py:24-33) that the
forward path reads: the two stores, the current-chat cursor and the
yanked `copied_msgs` buffer. -/
structure Model where
  chats : ChatModel
  msgs : MsgModel
  current_chat : Nat
  copied_msgs : Int × List Int

/-- The `for msg_id in msg_ids` permission loop of `Model.forward_msgs`
(tg/models.py:213-216): stop with `False` at the first message that is
unavailable or not forwardable.  `gm` is the backend `get_message`
oracle. -/
def forward_check (gm : Int → Int → Option Msg) (from_chat_id : Int) :
    List Int → MsgModel → MsgModel × Bool
  | [], ms => (ms, true)
  | msg_id :: rest, ms =>
    let r := get_message ms from_chat_id msg_id (gm from_chat_id msg_id)
    match r.2.1 with
    | none => (r.1, false)
    | some msg =>
      if msg.can_be_forwarded then forward_check gm from_chat_id rest r.1
      else (r.1, false)

/-- `Model.forward_msgs` (tg/models.py:206-220).  Returns the new model,
the boolean result, and the `forward_messages` backend call issued
(`some (to_chat, from_chat, ids)`) if any.  Python's falsy test
`if not chat_id` also rejects chat id 0. -/
def forward_msgs (m : Model) (gm : Int → Int → Option Msg) :
    Model × Bool × Option (Int × Int × List Int) :=
  match id_by_index m.chats m.current_chat with
  | none => (m, false, none)
  | some chat_id =>
    if chat_id = 0 then (m, false, none)
    else
      let from_chat_id := m.copied_msgs.1
      let msg_ids := m.copied_msgs.2
      if msg_ids = [] then (m, false, none)
      else
        let r := forward_check gm from_chat_id msg_ids m.msgs
        if r.2 then
          ({ m with msgs := r.1, copied_msgs := (0, []) }, true,
            some (chat_id, from_chat_id, msg_ids))
        else ({ m with msgs := r.1 }, false, none)

/-- The status line drawn by `Controller.present_error`
(`f"Error: {msg}"`, tg/controllers.py:809-819) for a refused forward. -/
def errCantForward : String := "Error: Can\x27t forward msg(s)"

/-- The status line drawn by `Controller.present_info` after a
successful forward (tg/controllers.py:200). -/
def infoForwarded : String := "Info: Forwarded msg(s)"

/-- `Controller.forward_msgs` (tg/controllers.py:194-200): run the model
operation and present the error or info status line. -/
def controller_forward_msgs (m : Model) (gm : Int → Int → Option Msg) :
    Model × Option (Int × Int × List Int) × String :=
  let r := forward_msgs m gm
  if r.2.1 then (r.1, r.2.2, infoForwarded) else (r.1, r.2.2, errCantForward)

theorem get_message_msgs (s : MsgModel) (c mid : Int) (resp : Option Msg) :
    (get_message s c mid resp).1.msgs = s.msgs := by
  unfold get_message
  by_cases hnf : mid ∈ s.not_found
  · rw [if_pos hnf]
  · rw [if_neg hnf]
    rcases s.msgs c mid with _ | m
    · rcases resp with _ | m2 <;> rfl
    · rfl

theorem get_message_cached {s : MsgModel} {c mid : Int} {resp : Option Msg}
    {msg m2 : Msg} (hm : s.msgs c mid = some msg)
    (hr : (get_message s c mid resp).2.1 = some m2) : m2 = msg := by
  unfold get_message at hr
  by_cases hnf : mid ∈ s.not_found
  · rw [if_pos hnf] at hr
    exact absurd hr (by simp)
  · rw [if_neg hnf, hm] at hr
    dsimp only at hr
    injection hr with hr
    exact hr.symm

/-- If some id in the list has a cached record that cannot be forwarded,
the permission loop reports `false`. -/
theorem forward_check_false (gm : Int → Int → Option Msg) (fc : Int) :
    ∀ (ids : List Int) (ms : MsgModel),
      (∃ mid ∈ ids, ∃ msg : Msg,
        ms.msgs fc mid = some msg ∧ msg.can_be_forwarded = false) →
      (forward_check gm fc ids ms).2 = false := by
  intro ids
  induction ids with
  | nil =>
    intro ms hbad
    obtain ⟨mid, hmem, _⟩ := hbad
    simp at hmem
  | cons i rest ih =>
    intro ms hbad
    obtain ⟨mid, hmem, msg, hms, hforw⟩ := hbad
    rw [forward_check]
    rcases hr : (get_message ms fc i (gm fc i)).2.1 with _ | msg2 <;> dsimp only
    by_cases hcan : msg2.can_be_forwarded
    · rw [if_pos hcan]
      rcases List.mem_cons.mp hmem with rfl | hmem2
      · rw [get_message_cached hms hr] at hcan
        exact absurd hforw (by simp [hcan])
      · refine ih _ ⟨mid, hmem2, msg, ?_, hforw⟩
        rw [get_message_msgs]
        exact hms
    · rw [if_neg hcan]

/-- C8: when the copied-messages buffer holds an id whose stored record
has `can_be_forwarded == false`, the forward command issues no
`forward_messages` backend call, shows the status line
`"Error: Can't forward msg(s)"`, and leaves `copied_msgs` unchanged. -/
theorem c8_forward_refused (m : Model) (gm : Int → Int → Option Msg)
    (hbad : ∃ mid ∈ m.copied_msgs.2, ∃ msg : Msg,
      m.msgs.msgs m.copied_msgs.1 mid = some msg ∧ msg.can_be_forwarded = false) :
    (controller_forward_msgs m gm).2.1 = none ∧
      (controller_forward_msgs m gm).2.2 = errCantForward ∧
      (controller_forward_msgs m gm).1.copied_msgs = m.copied_msgs := by
  have hfwd : (forward_msgs m gm).2.1 = false ∧ (forward_msgs m gm).2.2 = none ∧
      (forward_msgs m gm).1.copied_msgs = m.copied_msgs := by
    unfold forward_msgs
    rcases hid : id_by_index m.chats m.current_chat with _ | chat_id <;> dsimp only
    · exact ⟨rfl, rfl, rfl⟩
    · by_cases hz : chat_id = 0
      · rw [if_pos hz]
        exact ⟨rfl, rfl, rfl⟩
      · rw [if_neg hz]
        by_cases hemp : m.copied_msgs.2 = []
        · rw [if_pos hemp]
          exact ⟨rfl, rfl, rfl⟩
        · rw [if_neg hemp]
          have hcheck :=
            forward_check_false gm m.copied_msgs.1 m.copied_msgs.2 m.msgs hbad
          rw [hcheck, if_neg (by simp)]
          exact ⟨rfl, rfl, rfl⟩
  unfold controller_forward_msgs
  dsimp only
  rw [hfwd.1, if_neg (by simp)]
  exact ⟨hfwd.2.1, rfl, hfwd.2.2⟩

/-- The concrete model of C8's witness: chat 7 is current, the yank
buffer holds message 101 of chat 7, whose cached record is not
forwardable. -/
def c8model : Model where
  chats := { initChatModel with chats := [⟨7, 1, [1]⟩], chat_ids := {7} }
  msgs :=
    { initMsgModel with
      msgs := fun c mid => if c = 7 ∧ mid = 101 then some ⟨101, false⟩ else none
      msg_ids := fun c => if c = 7 then [101] else [] }
  current_chat := 0
  copied_msgs := (7, [101])

/-- Witness: the C8 theorem at the concrete refused-forward model. -/
theorem c8_forward_refused_witness :
    (controller_forward_msgs c8model (fun _ _ => none)).2.1 = none ∧
      (controller_forward_msgs c8model (fun _ _ => none)).2.2 = errCantForward ∧
      (controller_forward_msgs c8model (fun _ _ => none)).1.copied_msgs =
        c8model.copied_msgs :=
  c8_forward_refused c8model (fun _ _ => none)
    ⟨101, by decide, ⟨101, false⟩, by decide, rfl⟩

end Tg
